import Mathlib

/- Shallow embedding of the request authentication/authorization pipeline of
the `common-be-fastapi` repository: the token utilities
(`app/server/utils/token_util.py`), the exception and tracking middlewares
(`app/server/middlewares/exceptions.py`, `tracker.py`) and the async cache
(`app/server/utils/cache_util.py`). -/

/-- The `AccountStatus` enum from `app/server/static/enums.py`. -/
inductive AccountStatus
  | ACTIVE
  | INACTIVE
  | RESTRICTED
  | SIGN_UP
deriving DecidableEq, Repr

/-- The `TokenType` enum from `app/server/static/enums.py` (a `str` enum). -/
inductive TokenType
  | BEARER
  | RESET_PASSWORD
  | REFRESH
  | SIGN_UP
deriving DecidableEq, Repr

/-- The underlying string of each `TokenType` member (`enums.py` lines 11-15).
Python compares a `str`-valued enum member equal to its underlying string, so
string comparisons against members are modelled as comparisons of
`TokenType` values. -/
def TokenType.value : TokenType → String
  | .BEARER => "bearer"
  | .RESET_PASSWORD => "reset_password"
  | .REFRESH => "refresh"
  | .SIGN_UP => "sign_up"

/-- Modelled from the spec: `enums.Role` is referenced by `token_util.py`
(`enums.Role.SUPER_ADMIN`) but its definition is not under `src/`; spec §3
fixes the Role enum as CLIENT, TALENT, SUPER_ADMIN. -/
inductive Role
  | CLIENT
  | TALENT
  | SUPER_ADMIN
deriving DecidableEq, Repr

/-- Modelled from the spec: the message constants of
`app/server/static/localization.py` are not under `src/`; each constant raised
by the auth path is modelled as a distinct tag, following the error taxonomy
of spec §7. -/
inductive ErrorDetail
  | TOKEN_INVALID
  | ACCOUNT_INACTIVE
  | ACCOUNT_RESTRICTED
  | PERMISSION_DOESNT_EXIST
  | FORBIDDEN_ACCESS
  | GENERIC_ERROR
deriving DecidableEq, Repr

/-- A raised `fastapi.HTTPException`: its `status_code` and `detail`
arguments, as raised throughout `token_util.py`. -/
structure HTTPExc where
  status_code : Nat
  detail : ErrorDetail
deriving DecidableEq, Repr

/-- One document of the `api_permissions` collection as read by the
aggregation in `JWTAuthUser.check_permissions`: an (endpoint, method) pair and
the permission id it requires. -/
structure ApiPermission where
  endpoint : String
  method : String
  permission_id : Nat
deriving DecidableEq, Repr

/-- One document of the `app_roles_permissions` collection as read by the
`$lookup` in `JWTAuthUser.check_permissions`: a role-to-permission
membership. -/
structure AppRolePermission where
  app_role_id : Nat
  permission_id : Nat
deriving DecidableEq, Repr

/-- The two permission collections consulted by
`JWTAuthUser.check_permissions`; the document store itself is an external
collaborator (spec §6), so its contents are passed explicitly. -/
structure Store where
  api_permissions : List ApiPermission
  app_roles_permissions : List AppRolePermission
deriving Repr

/-- The fields of a resolved user/admin record that the auth path reads:
`account_status` and the optional `app_roles` list (spec §3; `none` models an
absent key). -/
structure UserRecord where
  account_status : AccountStatus
  app_roles : Option (List Nat)
deriving DecidableEq, Repr

/-- The role id list of a user record; an absent `app_roles` key yields the
empty list, so that `user.get('app_roles')` is falsy exactly when this list is
empty. -/
def UserRecord.appRolesList (u : UserRecord) : List Nat := u.app_roles.getD []

/-- `JWTAuthUser.check_permissions` (`token_util.py` lines 197-220).
Returns immediately when `user.get('app_roles')` is falsy. Otherwise the
Mongo aggregation is evaluated over the explicit `Store` exactly as the
pipeline in the source states it: `$match` keeps the `api_permissions` rows
whose endpoint and method equal the arguments; the `$lookup` collects the
`permission_id`s of every `app_roles_permissions` row whose `app_role_id` is
among the user's `app_roles`; `$addFields` marks a matched row as
`permission_exists` when its `permission_id` is among the collected ids; the
check raises a 401 with `EXCEPTION_PERMISSION_DOESNT_EXIST` unless `all`
matched rows are marked. -/
def check_permissions (store : Store) (endpoint method : String) (user : UserRecord) :
    Except HTTPExc Unit :=
  if user.appRolesList = [] then .ok ()
  else
    let matched := store.api_permissions.filter fun row =>
      row.endpoint == endpoint && row.method == method
    let user_permission_ids :=
      (store.app_roles_permissions.filter fun rp =>
        user.appRolesList.contains rp.app_role_id).map (·.permission_id)
    if matched.all fun row => user_permission_ids.contains row.permission_id then .ok ()
    else .error ⟨401, .PERMISSION_DOESNT_EXIST⟩

/-- The account-status gate of `JWTAuthUser.__call__` for non-super-admin
users (`token_util.py` lines 251-265), as a function of the token's type and
the resolved user's account status. -/
def account_status_gate (token_type : TokenType) (account_status : AccountStatus) :
    Except HTTPExc Unit :=
  if token_type = .SIGN_UP then
    if account_status ≠ .SIGN_UP then .error ⟨401, .ACCOUNT_INACTIVE⟩
    else .ok ()
  else
    if token_type ≠ .RESET_PASSWORD then
      if account_status = .INACTIVE then .error ⟨401, .ACCOUNT_INACTIVE⟩
      else if account_status = .RESTRICTED then .error ⟨401, .ACCOUNT_RESTRICTED⟩
      else if account_status ≠ .ACTIVE then .error ⟨401, .ACCOUNT_INACTIVE⟩
      else .ok ()
    else .ok ()

/-- The decoded token claims that `JWTAuthUser` reads after `_validate_token`:
`user_id`, `user_type` and `token_type` (spec §3, TokenClaims).
`_validate_token` has already checked that the `token_type` claim equals a
`TokenType` member's value, so the claim is carried as a `TokenType`. -/
structure TokenClaims where
  user_id : Nat
  user_type : Role
  token_type : TokenType
deriving DecidableEq, Repr

/-- `JWTAuthUser._handle_super_admin` (`token_util.py` lines 166-178). The
fire-and-forget `update_last_active` task does not affect the returned value
and is omitted (spec §4.4 step 8). -/
def handle_super_admin (access_levels : List Role) (token_data : TokenClaims)
    (existing_user : UserRecord) : Except HTTPExc TokenClaims :=
  if existing_user.account_status ≠ .ACTIVE then .error ⟨401, .ACCOUNT_INACTIVE⟩
  else if token_data.user_type ∉ access_levels then .error ⟨403, .FORBIDDEN_ACCESS⟩
  else .ok token_data

/-- `JWTAuthUser._validate_access_level` (`token_util.py` lines 192-195). -/
def validate_access_level (access_levels : List Role) (token_data : TokenClaims) :
    Except HTTPExc Unit :=
  if token_data.user_type ∉ access_levels then .error ⟨403, .FORBIDDEN_ACCESS⟩
  else .ok ()

/-- The request data read by `JWTAuthUser`: the URL path, the HTTP method and
the resolved route parameter values (`request.path_params.values()`). -/
structure RequestInfo where
  url_path : String
  method : String
  path_params : List String
deriving Repr

/-- The scanner of `re.sub(pattern, '', text)` for a literal (escaped)
non-empty pattern `n0 :: ntail`: `skip` counts pattern characters still to
be consumed from a match in progress; at `skip = 0` the scanner tests the
pattern against the current position, consumes it on a match, and otherwise
keeps one character and moves on. -/
def removeOccsAux (n0 : Char) (ntail : List Char) : List Char → Nat → List Char
  | [], _ => []
  | _ :: rest, skip + 1 => removeOccsAux n0 ntail rest skip
  | c :: rest, 0 =>
    if (n0 :: ntail).isPrefixOf (c :: rest) then removeOccsAux n0 ntail rest ntail.length
    else c :: removeOccsAux n0 ntail rest 0

/-- Leftmost non-overlapping removal of every occurrence of the non-empty
pattern `n0 :: ntail` from the text: the behaviour of
`re.sub(pattern, '', text)` with a literal pattern. -/
def removeOccs (n0 : Char) (ntail : List Char) (hay : List Char) : List Char :=
  removeOccsAux n0 ntail hay 0

/-- `JWTAuthUser._get_cleaned_url_path` (`token_util.py` lines 180-186):
folds over the resolved path-parameter values, removing every occurrence of
`'/' ++ value` from the URL path; `re.escape` makes the pattern literal and
`re.sub(..., '', ...)` is leftmost non-overlapping replacement by the empty
string, modelled by `removeOccs`. -/
def get_cleaned_url_path (req : RequestInfo) : String :=
  String.mk (req.path_params.foldl (fun path v => removeOccs '/' v.data path) req.url_path.data)

/-- The tail of `JWTAuthUser.__call__` after user resolution (`token_util.py`
lines 246-272): super-admin claims are dispatched to `_handle_super_admin`
and skip the permission, account-status and access-level steps; all other
claims run `_validate_permissions` (the permission check on the cleaned URL
path and the request method), then the account-status gate, then
`_validate_access_level`, and on success the decoded claims are returned.
The fire-and-forget last-active update is omitted (it does not affect the
result). -/
def auth_gate_after_user (access_levels : List Role) (store : Store) (req : RequestInfo)
    (token_data : TokenClaims) (existing_user : UserRecord) : Except HTTPExc TokenClaims :=
  if token_data.user_type = .SUPER_ADMIN then
    handle_super_admin access_levels token_data existing_user
  else do
    check_permissions store (get_cleaned_url_path req) req.method existing_user
    account_status_gate token_data.token_type existing_user.account_status
    validate_access_level access_levels token_data
    pure token_data

/-- The exception classes distinguished by the `except` clauses of
`handle_exceptions` (`middlewares/exceptions.py` lines 24-71). A caught
`HTTPException` carries its status code and detail. -/
inductive CaughtExc
  | requestValidationError
  | valueError
  | expiredSignatureError
  | jwtError
  | httpException (e : HTTPExc)
  | otherException
deriving DecidableEq, Repr

/-- The HTTP status of the JSON error response produced by each `except`
branch of `handle_exceptions` (`middlewares/exceptions.py` lines 31-70):
validation and value errors surface 422, expired-signature and generic JWT
errors surface 401, an `HTTPException` passes its own `status_code` through,
and anything else surfaces 500. -/
def surfaced_status_code : CaughtExc → Nat
  | .requestValidationError => 422
  | .valueError => 422
  | .expiredSignatureError => 401
  | .jwtError => 401
  | .httpException e => e.status_code
  | .otherException => 500

/-- Helper: `check_permissions` succeeds exactly when the user has no app
roles or every matching `api_permissions` row has its permission granted to
one of the user's roles. -/
theorem check_permissions_ok_iff (store : Store) (endpoint method : String)
    (user : UserRecord) :
    check_permissions store endpoint method user = .ok () ↔
      (user.appRolesList = [] ∨
        ∀ row ∈ store.api_permissions, row.endpoint = endpoint → row.method = method →
          ∃ rp ∈ store.app_roles_permissions,
            rp.app_role_id ∈ user.appRolesList ∧ rp.permission_id = row.permission_id) := by
  unfold check_permissions
  by_cases h : user.appRolesList = []
  · simp [h]
  · rw [if_neg h]
    simp only [h, false_or]
    split
    · rename_i hall
      simp only [List.all_eq_true, List.mem_filter, Bool.and_eq_true, beq_iff_eq,
        List.contains, List.elem_eq_mem, List.mem_map, List.mem_filter,
        decide_eq_true_iff] at hall
      constructor
      · intro _ row hrowmem hep hm
        obtain ⟨rp, ⟨hrpmem, hrole⟩, hpid⟩ := hall row ⟨hrowmem, hep, hm⟩
        exact ⟨rp, hrpmem, hrole, hpid⟩
      · intro _
        rfl
    · rename_i hall
      constructor
      · intro hcontra
        exact absurd hcontra (by simp)
      · intro hforall
        refine absurd ?_ hall
        simp only [List.all_eq_true, List.mem_filter, Bool.and_eq_true, beq_iff_eq,
          List.contains, List.elem_eq_mem, List.mem_map, List.mem_filter,
          decide_eq_true_iff]
        intro row hmem
        obtain ⟨hrowmem, hep, hm⟩ := hmem
        obtain ⟨rp, hrpmem, hrole, hpid⟩ := hforall row hrowmem hep hm
        exact ⟨rp, ⟨hrpmem, hrole⟩, hpid⟩

/-- Helper: `check_permissions` returns either success or the single 401
permission failure raised at `token_util.py` line 220. -/
theorem check_permissions_ok_or_error (store : Store) (endpoint method : String)
    (user : UserRecord) :
    check_permissions store endpoint method user = .ok () ∨
      check_permissions store endpoint method user = .error ⟨401, .PERMISSION_DOESNT_EXIST⟩ := by
  unfold check_permissions
  by_cases h : user.appRolesList = []
  · simp [h]
  · simp only [if_neg h]
    split
    · exact .inl rfl
    · exact .inr rfl

/-- C1: `JWTAuthUser.check_permissions` raises the 401 permission failure iff
the user record has a non-empty `app_roles` list and at least one
`api_permissions` row matching (endpoint, method) exactly has a permission id
granted by none of the user's app roles; it succeeds when `app_roles` is
absent or empty, and succeeds vacuously when zero rows match the endpoint
(fail-open). -/
theorem check_permissions_denies_iff (store : Store) (endpoint method : String)
    (user : UserRecord) :
    (check_permissions store endpoint method user = .error ⟨401, .PERMISSION_DOESNT_EXIST⟩ ↔
      user.appRolesList ≠ [] ∧
        ∃ row ∈ store.api_permissions, row.endpoint = endpoint ∧ row.method = method ∧
          ∀ rp ∈ store.app_roles_permissions,
            rp.app_role_id ∈ user.appRolesList → rp.permission_id ≠ row.permission_id)
    ∧ (user.appRolesList = [] → check_permissions store endpoint method user = .ok ())
    ∧ ((∀ row ∈ store.api_permissions, ¬(row.endpoint = endpoint ∧ row.method = method)) →
        check_permissions store endpoint method user = .ok ()) := by
  have hiff := check_permissions_ok_iff store endpoint method user
  have hoe := check_permissions_ok_or_error store endpoint method user
  refine ⟨⟨?_, ?_⟩, ?_, ?_⟩
  · intro herr
    have hnot : ¬(user.appRolesList = [] ∨ ∀ row ∈ store.api_permissions,
        row.endpoint = endpoint → row.method = method →
          ∃ rp ∈ store.app_roles_permissions,
            rp.app_role_id ∈ user.appRolesList ∧ rp.permission_id = row.permission_id) := by
      intro hr
      rw [hiff.mpr hr] at herr
      cases herr
    push_neg at hnot
    obtain ⟨h1, row, hrowmem, hep, hm, hno⟩ := hnot
    exact ⟨h1, row, hrowmem, hep, hm, hno⟩
  · rintro ⟨h1, row, hrowmem, hep, hm, hno⟩
    rcases hoe with hok | herr
    · exfalso
      rcases hiff.mp hok with hroles | hforall
      · exact h1 hroles
      · obtain ⟨rp, hrpmem, hrole, hpid⟩ := hforall row hrowmem hep hm
        exact hno rp hrpmem hrole hpid
    · exact herr
  · intro hempty
    exact hiff.mpr (.inl hempty)
  · intro hnomatch
    refine hiff.mpr (.inr ?_)
    intro row hrowmem hep hm
    exact absurd ⟨hep, hm⟩ (hnomatch row hrowmem)

/-- A store with one POST permission rule on `/users/edit` requiring
permission 7, while role 2 only holds permission 9. -/
def demoStore : Store := ⟨[⟨"/users/edit", "POST", 7⟩], [⟨2, 9⟩]⟩

/-- An active user whose only app role is 2. -/
def demoUser : UserRecord := ⟨.ACTIVE, some [2]⟩

/-- Witness for C1 at a concrete store and user: role 2 lacks permission 7,
so the check denies. -/
theorem check_permissions_denies_iff_witness :
    check_permissions demoStore "/users/edit" "POST" demoUser =
      .error ⟨401, .PERMISSION_DOESNT_EXIST⟩ :=
  (check_permissions_denies_iff demoStore "/users/edit" "POST" demoUser).1.mpr
    (by decide)

/-- C2: the non-super-admin account-status gate of `JWTAuthUser.__call__`:
a SIGN_UP token passes only on account status SIGN_UP and otherwise fails
401; a RESET_PASSWORD token skips the gate entirely; every other token type
fails 401 with the inactive detail on INACTIVE, 401 with the restricted
detail on RESTRICTED, fails on every status other than ACTIVE, and passes
exactly on ACTIVE. -/
theorem account_status_gate_spec :
    (∀ st, account_status_gate .SIGN_UP st =
      if st = .SIGN_UP then .ok () else .error ⟨401, .ACCOUNT_INACTIVE⟩)
    ∧ (∀ st, account_status_gate .RESET_PASSWORD st = .ok ())
    ∧ (∀ tt st, tt ≠ .SIGN_UP → tt ≠ .RESET_PASSWORD →
        account_status_gate tt st =
          match st with
          | .ACTIVE => .ok ()
          | .INACTIVE => .error ⟨401, .ACCOUNT_INACTIVE⟩
          | .RESTRICTED => .error ⟨401, .ACCOUNT_RESTRICTED⟩
          | .SIGN_UP => .error ⟨401, .ACCOUNT_INACTIVE⟩) := by
  refine ⟨fun st => by cases st <;> rfl, fun st => by cases st <;> rfl, ?_⟩
  intro tt st h1 h2
  cases tt
  · cases st <;> rfl
  · exact absurd rfl h2
  · cases st <;> rfl
  · exact absurd rfl h1

/-- Witness for C2: a BEARER token on a RESTRICTED account fails with the
restricted detail. -/
theorem account_status_gate_spec_witness :
    account_status_gate .BEARER .RESTRICTED = .error ⟨401, .ACCOUNT_RESTRICTED⟩ :=
  account_status_gate_spec.2.2 .BEARER .RESTRICTED (by decide) (by decide)

/-- C3: after user resolution, a SUPER_ADMIN `user_type` takes the terminal
super-admin branch: the result equals `_handle_super_admin` and is
independent of the permission store and the request (the permission check is
never invoked); it fails 401 with the inactive detail whenever the account
status is not ACTIVE, regardless of access levels and store; the 403
access-level failure is checked only after the status check passes; and on
success the decoded claims are returned. -/
theorem auth_gate_super_admin_spec (access_levels : List Role) (store : Store)
    (req : RequestInfo) (token_data : TokenClaims) (existing_user : UserRecord)
    (hsa : token_data.user_type = .SUPER_ADMIN) :
    (∀ store' req', auth_gate_after_user access_levels store' req' token_data existing_user =
        handle_super_admin access_levels token_data existing_user)
    ∧ (existing_user.account_status ≠ .ACTIVE →
        auth_gate_after_user access_levels store req token_data existing_user =
          .error ⟨401, .ACCOUNT_INACTIVE⟩)
    ∧ (existing_user.account_status = .ACTIVE → token_data.user_type ∉ access_levels →
        auth_gate_after_user access_levels store req token_data existing_user =
          .error ⟨403, .FORBIDDEN_ACCESS⟩)
    ∧ (existing_user.account_status = .ACTIVE → token_data.user_type ∈ access_levels →
        auth_gate_after_user access_levels store req token_data existing_user =
          .ok token_data) := by
  have hbr : ∀ (store' : Store) (req' : RequestInfo),
      auth_gate_after_user access_levels store' req' token_data existing_user =
        handle_super_admin access_levels token_data existing_user := by
    intro store' req'
    unfold auth_gate_after_user
    rw [if_pos hsa]
  refine ⟨hbr, ?_, ?_, ?_⟩
  · intro hst
    rw [hbr store req]
    unfold handle_super_admin
    rw [if_pos hst]
  · intro hst hlv
    rw [hbr store req]
    unfold handle_super_admin
    rw [if_neg (not_not_intro hst), if_pos hlv]
  · intro hst hlv
    rw [hbr store req]
    unfold handle_super_admin
    rw [if_neg (not_not_intro hst), if_neg (not_not_intro hlv)]

/-- A request for `/users/42/edit` with resolved route parameter value 42. -/
def demoRequest : RequestInfo := ⟨"/users/42/edit", "POST", ["42"]⟩

/-- Witness for C3: an inactive super admin fails with the inactive detail
even though the empty access-level list would also fail the 403 check. -/
theorem auth_gate_super_admin_spec_witness :
    auth_gate_after_user [] demoStore demoRequest ⟨1, .SUPER_ADMIN, .BEARER⟩
      ⟨.INACTIVE, none⟩ = .error ⟨401, .ACCOUNT_INACTIVE⟩ :=
  (auth_gate_super_admin_spec [] demoStore demoRequest ⟨1, .SUPER_ADMIN, .BEARER⟩
    ⟨.INACTIVE, none⟩ rfl).2.1 (by decide)

/-- C4 counterexample: at a concrete store and user, the permission failure
raised by `check_permissions` carries HTTP status 401, and the
`HTTPException` branch of `handle_exceptions` surfaces that 401 — not 403 —
to the client. -/
theorem permission_denied_statuses_counterexample :
    check_permissions demoStore "/users/edit" "POST" demoUser =
      .error ⟨401, .PERMISSION_DOESNT_EXIST⟩
    ∧ surfaced_status_code (.httpException ⟨401, .PERMISSION_DOESNT_EXIST⟩) = 401
    ∧ surfaced_status_code (.httpException ⟨401, .PERMISSION_DOESNT_EXIST⟩) ≠ 403 := by
  refine ⟨rfl, rfl, by decide⟩

/-- C4 amended: every permission-scope failure raised by `check_permissions`
surfaces to the client with HTTP status 401 — unlike access-level mismatches,
which are raised with (and surface as) 403. -/
theorem permission_denied_surfaces_401 (store : Store) (endpoint method : String)
    (user : UserRecord) (err : HTTPExc)
    (herr : check_permissions store endpoint method user = .error err) :
    err = ⟨401, .PERMISSION_DOESNT_EXIST⟩
    ∧ surfaced_status_code (.httpException err) = 401
    ∧ (∀ lv td, td.user_type ∉ lv →
        validate_access_level lv td = .error ⟨403, .FORBIDDEN_ACCESS⟩
        ∧ surfaced_status_code (.httpException ⟨403, .FORBIDDEN_ACCESS⟩) = 403) := by
  rcases check_permissions_ok_or_error store endpoint method user with hok | herr'
  · rw [hok] at herr
    cases herr
  · rw [herr] at herr'
    have h := Except.error.inj herr'
    subst h
    refine ⟨rfl, rfl, ?_⟩
    intro lv td hlv
    exact ⟨by unfold validate_access_level; rw [if_pos hlv], rfl⟩

/-- Witness for C4's amended theorem at the concrete store and user. -/
theorem permission_denied_surfaces_401_witness :
    surfaced_status_code (.httpException ⟨401, .PERMISSION_DOESNT_EXIST⟩) = 401 :=
  (permission_denied_surfaces_401 demoStore "/users/edit" "POST" demoUser
    ⟨401, .PERMISSION_DOESNT_EXIST⟩ rfl).2.1

/-- A JSON claim value: the token payloads used by the utilities carry
strings and numbers. -/
inductive ClaimValue
  | str (s : String)
  | num (n : Int)
deriving DecidableEq, Repr

/-- Python dict assignment `d[k] = v`, as performed pointwise by the `|=`
merge in `create_jwt_token`: replaces the value at an existing key (keeping
its position) or appends a new binding. -/
def dict_set : List (String × ClaimValue) → String → ClaimValue → List (String × ClaimValue)
  | [], k, v => [(k, v)]
  | (k0, v0) :: rest, k, v =>
    if k0 = k then (k, v) :: rest else (k0, v0) :: dict_set rest k v

/-- Modelled from the spec: the encoded token string produced by
`jose.jwt.encode` is opaque and its byte format is not under `src/`; spec §3
says the signature covers the full claim set and §4.1 that the codec is
deterministic given secret and clock, so a token is modelled as its claim set
together with the signing secret, and signature verification as equality of
the decoding secret with the signing secret. -/
structure Token where
  claims : List (String × ClaimValue)
  secret : String
deriving DecidableEq, Repr

/-- `create_jwt_token` (`token_util.py` lines 32-47): copies the payload and
merges in `token_type`, `iat` (now) and `exp` (now + expires_delta) with the
Python dict merge `|=`, signing with the configured secret; the second
return value is the expiry as epoch milliseconds. Time is modelled in whole
epoch seconds. -/
def create_jwt_token (payload : List (String × ClaimValue)) (now expires_delta : Int)
    (token_type : TokenType) (secret : String) : Token × Int :=
  let expire := now + expires_delta
  let to_encode :=
    dict_set (dict_set (dict_set payload "token_type" (.str token_type.value))
      "iat" (.num now)) "exp" (.num expire)
  (⟨to_encode, secret⟩, expire * 1000)

/-- The failure modes of token decoding (spec §4.1 and §7). -/
inductive DecodeError
  | TokenExpired
  | TokenInvalid
deriving DecidableEq, Repr

/-- Modelled from the spec: `verify_jwt_token` delegates decoding to
`jose.jwt.decode`, whose code is not under `src/`. Spec §4.1 says decode
"verifies signature and expiry; fails with TokenExpired if expiry has
passed, TokenInvalid for any malformed/unverifiable token" and §8 that "for
all tokens past their exp, decode fails with TokenExpired regardless of
signature validity otherwise", so the expiry check dominates; a token whose
`exp` claim is absent or non-numeric is malformed. -/
def jwt_decode (t : Token) (secret : String) (now : Int) :
    Except DecodeError (List (String × ClaimValue)) :=
  match t.claims.lookup "exp" with
  | some (.num e) =>
    if e < now then .error .TokenExpired
    else if t.secret ≠ secret then .error .TokenInvalid
    else .ok t.claims
  | _ => .error .TokenInvalid

/-- The reserved claim names deleted by `verify_jwt_token`
(`token_util.py` line 61). -/
def reserved_claims : List String := ["iss", "sub", "aud", "exp", "nbf", "iat", "jti"]

/-- `verify_jwt_token` (`token_util.py` lines 50-65): decodes the token with
the configured secret and, when `remove_reserved_claims` is set, deletes the
reserved claim names from the decoded mapping. -/
def verify_jwt_token (t : Token) (secret : String) (now : Int)
    (remove_reserved_claims : Bool) : Except DecodeError (List (String × ClaimValue)) := do
  let decoded ← jwt_decode t secret now
  if remove_reserved_claims then
    pure (decoded.filter fun p => !(reserved_claims.contains p.1))
  else
    pure decoded

/-- Helper: `jwt_decode` on a token whose `exp` claim is in the past. -/
theorem jwt_decode_expired (t : Token) (secret : String) (now e : Int)
    (hexp : t.claims.lookup "exp" = some (.num e)) (hpast : e < now) :
    jwt_decode t secret now = .error .TokenExpired := by
  unfold jwt_decode
  rw [hexp]
  show (if e < now then Except.error DecodeError.TokenExpired
    else if t.secret ≠ secret then Except.error DecodeError.TokenInvalid
    else Except.ok t.claims) = Except.error DecodeError.TokenExpired
  rw [if_pos hpast]

/-- Helper: `jwt_decode` on a fresh token with the matching secret. -/
theorem jwt_decode_fresh (t : Token) (secret : String) (now e : Int)
    (hexp : t.claims.lookup "exp" = some (.num e)) (hok : ¬ e < now)
    (hs : t.secret = secret) :
    jwt_decode t secret now = .ok t.claims := by
  unfold jwt_decode
  rw [hexp]
  show (if e < now then Except.error DecodeError.TokenExpired
    else if t.secret ≠ secret then Except.error DecodeError.TokenInvalid
    else Except.ok t.claims) = Except.ok t.claims
  rw [if_neg hok, if_neg (not_not_intro hs)]

/-- C5: for every token whose `exp` claim lies in the past at decode time,
`verify_jwt_token` fails with TokenExpired, for any decoding secret — in
particular also when the token's signature would not verify — and whether or
not reserved claims are stripped. -/
theorem verify_expired_token (t : Token) (secret : String) (now : Int) (e : Int)
    (hexp : t.claims.lookup "exp" = some (.num e)) (hpast : e < now) (rr : Bool) :
    verify_jwt_token t secret now rr = .error .TokenExpired := by
  unfold verify_jwt_token
  rw [jwt_decode_expired t secret now e hexp hpast]
  rfl

/-- Witness for C5: an expired token decoded with a non-matching secret (a
signature that would not verify) still fails with TokenExpired. -/
theorem verify_expired_token_witness :
    verify_jwt_token ⟨[("exp", .num 0)], "secret-a"⟩ "secret-b" 5 false =
      .error .TokenExpired :=
  verify_expired_token ⟨[("exp", .num 0)], "secret-a"⟩ "secret-b" 5 0 rfl (by decide) false

/-- Helper: `dict_set` binds the assigned key to the assigned value. -/
theorem lookup_dict_set_self (m : List (String × ClaimValue)) (k : String) (v : ClaimValue) :
    (dict_set m k v).lookup k = some v := by
  induction m with
  | nil => simp [dict_set, List.lookup]
  | cons p rest ih =>
    obtain ⟨k0, v0⟩ := p
    by_cases h : k0 = k
    · simp [dict_set, h, List.lookup]
    · have hb : (k == k0) = false := beq_eq_false_iff_ne.mpr (Ne.symm h)
      simp [dict_set, if_neg h, List.lookup, hb, ih]

/-- Helper: `dict_set` does not alter the binding of any other key. -/
theorem lookup_dict_set_ne (m : List (String × ClaimValue)) (k k' : String) (v : ClaimValue)
    (h : k' ≠ k) : (dict_set m k v).lookup k' = m.lookup k' := by
  induction m with
  | nil =>
    have hb : (k' == k) = false := beq_eq_false_iff_ne.mpr h
    simp [dict_set, List.lookup, hb]
  | cons p rest ih =>
    obtain ⟨k0, v0⟩ := p
    by_cases h0 : k0 = k
    · subst h0
      have hb : (k' == k0) = false := beq_eq_false_iff_ne.mpr h
      simp [dict_set, List.lookup, hb]
    · cases hb : k' == k0
      · simp [dict_set, if_neg h0, List.lookup, hb, ih]
      · simp [dict_set, if_neg h0, List.lookup, hb]

/-- Payload for the C6 counterexample: the caller already bound a
`token_type` claim. -/
def clashPayload : List (String × ClaimValue) := [("token_type", .str "x")]

/-- C6 counterexample: encoding a payload that already binds `token_type`
and decoding it fresh (same secret, before expiry, no stripping) does not
preserve that original claim, although `token_type` is neither `iat` nor
`exp`: it is overwritten with the requested token type. -/
theorem round_trip_counterexample :
    (∃ d, verify_jwt_token (create_jwt_token clashPayload 0 100 .BEARER "s").1 "s" 50 false =
        .ok d ∧ d.lookup "token_type" = some (.str "bearer"))
    ∧ clashPayload.lookup "token_type" = some (.str "x")
    ∧ ("token_type" : String) ≠ "iat" ∧ ("token_type" : String) ≠ "exp"
    ∧ some (ClaimValue.str "bearer") ≠ some (ClaimValue.str "x") := by
  exact ⟨⟨_, rfl, rfl⟩, rfl, by decide, by decide, by decide⟩

/-- C6 amended: for every payload that does not already bind `token_type`,
every issue time, ttl, token type and secret: decoding the freshly encoded
token (same secret, before expiry, without stripping) succeeds and yields
exactly the original claims plus the reserved fields added at encode time:
`token_type` equals the requested type, `iat` and `exp` hold issue time and
expiry, every original claim key other than `iat`/`exp` is unaltered, and no
key beyond the originals and the three added fields appears. -/
theorem create_verify_round_trip (payload : List (String × ClaimValue))
    (now expires_delta : Int) (tt : TokenType) (secret : String) (tdec : Int)
    (hfresh : tdec ≤ now + expires_delta)
    (hno : payload.lookup "token_type" = none) :
    ∃ d, verify_jwt_token (create_jwt_token payload now expires_delta tt secret).1
        secret tdec false = .ok d
      ∧ d.lookup "token_type" = some (.str tt.value)
      ∧ d.lookup "iat" = some (.num now)
      ∧ d.lookup "exp" = some (.num (now + expires_delta))
      ∧ (∀ k, payload.lookup k ≠ none → k ≠ "iat" → k ≠ "exp" →
          d.lookup k = payload.lookup k)
      ∧ (∀ k, (d.lookup k).isSome →
          (payload.lookup k).isSome ∨ k = "token_type" ∨ k = "iat" ∨ k = "exp") := by
  refine ⟨dict_set (dict_set (dict_set payload "token_type" (.str tt.value))
      "iat" (.num now)) "exp" (.num (now + expires_delta)), ?_, ?_, ?_, ?_, ?_, ?_⟩
  · show verify_jwt_token
      ⟨dict_set (dict_set (dict_set payload "token_type" (.str tt.value))
        "iat" (.num now)) "exp" (.num (now + expires_delta)), secret⟩ secret tdec false = _
    unfold verify_jwt_token
    rw [jwt_decode_fresh _ _ _ (now + expires_delta) (lookup_dict_set_self _ _ _)
      (by omega) rfl]
    rfl
  · rw [lookup_dict_set_ne _ _ _ _ (by decide), lookup_dict_set_ne _ _ _ _ (by decide),
      lookup_dict_set_self]
  · rw [lookup_dict_set_ne _ _ _ _ (by decide), lookup_dict_set_self]
  · exact lookup_dict_set_self _ _ _
  · intro k hk hiat hexp
    by_cases htt : k = "token_type"
    · rw [htt] at hk
      exact absurd hno hk
    · rw [lookup_dict_set_ne _ _ _ _ hexp, lookup_dict_set_ne _ _ _ _ hiat,
        lookup_dict_set_ne _ _ _ _ htt]
  · intro k hk
    by_cases hexp : k = "exp"
    · exact .inr (.inr (.inr hexp))
    · rw [lookup_dict_set_ne _ _ _ _ hexp] at hk
      by_cases hiat : k = "iat"
      · exact .inr (.inr (.inl hiat))
      · rw [lookup_dict_set_ne _ _ _ _ hiat] at hk
        by_cases htt : k = "token_type"
        · exact .inr (.inl htt)
        · rw [lookup_dict_set_ne _ _ _ _ htt] at hk
          exact .inl hk

/-- Witness for C6's amended round trip at a concrete payload. -/
theorem create_verify_round_trip_witness :
    ∃ d, verify_jwt_token (create_jwt_token [("user_id", .num 1)] 10 100 .BEARER "s").1
        "s" 50 false = .ok d ∧ d.lookup "token_type" = some (.str "bearer") := by
  obtain ⟨d, h1, h2, _⟩ := create_verify_round_trip [("user_id", .num 1)] 10 100 .BEARER "s"
    50 (by decide) rfl
  exact ⟨d, h1, h2⟩

/-- Helper: skipping `k` characters of a match in progress is dropping them. -/
theorem removeOccsAux_skip (n0 : Char) (ntail : List Char) :
    ∀ k l, removeOccsAux n0 ntail l k = removeOccsAux n0 ntail (l.drop k) 0 := by
  intro k
  induction k with
  | zero =>
    intro l
    rw [List.drop_zero]
  | succ k ih =>
    intro l
    cases l with
    | nil => simp [removeOccsAux]
    | cons c rest => rw [removeOccsAux, ih, List.drop_succ_cons]

/-- Helper: `removeOccs` on a position where the pattern matches consumes
the whole pattern. -/
theorem removeOccs_cons_pos (n0 c : Char) (ntail rest : List Char)
    (hpre : (n0 :: ntail).isPrefixOf (c :: rest) = true) :
    removeOccs n0 ntail (c :: rest) = removeOccs n0 ntail (rest.drop ntail.length) := by
  unfold removeOccs
  rw [removeOccsAux, if_pos hpre, removeOccsAux_skip]

/-- Helper: `removeOccs` on a position where the pattern does not match
keeps the character. -/
theorem removeOccs_cons_neg (n0 c : Char) (ntail rest : List Char)
    (hpre : ¬ (n0 :: ntail).isPrefixOf (c :: rest) = true) :
    removeOccs n0 ntail (c :: rest) = c :: removeOccs n0 ntail rest := by
  unfold removeOccs
  rw [removeOccsAux, if_neg hpre]

/-- The index of the leftmost occurrence of `needle` in `hay` (`none` when
`needle` does not occur): the position reference for exact textual removal. -/
def firstOcc (needle : List Char) : List Char → Option Nat
  | [] => if needle = [] then some 0 else none
  | c :: rest =>
    if needle.isPrefixOf (c :: rest) then some 0
    else (firstOcc needle rest).map (· + 1)

/-- Helper: an occurrence of a non-empty needle starts inside the text. -/
theorem firstOcc_lt_length (n0 : Char) (ntail : List Char) :
    ∀ hay i, firstOcc (n0 :: ntail) hay = some i → i < hay.length := by
  intro hay
  induction hay with
  | nil =>
    intro i h
    simp [firstOcc] at h
  | cons c rest ih =>
    intro i h
    rw [firstOcc] at h
    split at h
    · cases h
      simp
    · simp only [Option.map_eq_some'] at h
      obtain ⟨j, hj, rfl⟩ := h
      have := ih j hj
      simp only [List.length_cons]
      omega

/-- Exact textual removal of every occurrence of the non-empty needle
`n0 :: ntail` from the text, working left to right: the leftmost occurrence
is cut out and removal continues with the remainder of the text. This is the
specification-side notion of "exact textual removal of the parameter's value
from the path" (spec §4.3). -/
def textualRemoveAll (n0 : Char) (ntail : List Char) (hay : List Char) : List Char :=
  match h : firstOcc (n0 :: ntail) hay with
  | none => hay
  | some i => hay.take i ++ textualRemoveAll n0 ntail (hay.drop (i + (ntail.length + 1)))
termination_by hay.length
decreasing_by
  have := firstOcc_lt_length n0 ntail hay i h
  simp only [List.length_drop]
  omega

/-- Helper: unfolding `textualRemoveAll` when the needle does not occur. -/
theorem textualRemoveAll_none (n0 : Char) (ntail : List Char) (hay : List Char)
    (hfo : firstOcc (n0 :: ntail) hay = none) :
    textualRemoveAll n0 ntail hay = hay := by
  unfold textualRemoveAll
  split
  · rfl
  · rename_i i heq
    rw [hfo] at heq
    cases heq

/-- Helper: unfolding `textualRemoveAll` at the leftmost occurrence. -/
theorem textualRemoveAll_some (n0 : Char) (ntail : List Char) (hay : List Char) (i : Nat)
    (hfo : firstOcc (n0 :: ntail) hay = some i) :
    textualRemoveAll n0 ntail hay =
      hay.take i ++ textualRemoveAll n0 ntail (hay.drop (i + (ntail.length + 1))) := by
  rw [textualRemoveAll]
  split
  · rename_i heq
    rw [hfo] at heq
    cases heq
  · rename_i j heq
    rw [hfo] at heq
    cases heq
    rfl

/-- Helper: when the needle does not occur, the scanner leaves the text
unchanged. -/
theorem removeOccs_of_firstOcc_none (n0 : Char) (ntail : List Char) :
    ∀ hay, firstOcc (n0 :: ntail) hay = none → removeOccs n0 ntail hay = hay := by
  intro hay
  induction hay with
  | nil => intro _; rfl
  | cons c rest ih =>
    intro h
    rw [firstOcc] at h
    split at h
    · cases h
    · rename_i hpre
      rw [removeOccs_cons_neg _ _ _ _ hpre, ih (Option.map_eq_none'.mp h)]

/-- The scanning replacement of `re.sub` coincides with left-to-right exact
textual removal at leftmost occurrences. -/
theorem removeOccs_eq_textual (n0 : Char) (ntail : List Char) (hay : List Char) :
    removeOccs n0 ntail hay = textualRemoveAll n0 ntail hay := by
  generalize hn : hay.length = n
  induction n using Nat.strong_induction_on generalizing hay with
  | _ n ih =>
  cases hay with
  | nil =>
    have hfo : firstOcc (n0 :: ntail) [] = none := by
      rw [firstOcc]
      simp
    rw [textualRemoveAll_none _ _ _ hfo]
    rfl
  | cons c rest =>
    simp only [List.length_cons] at hn
    by_cases hpre : (n0 :: ntail).isPrefixOf (c :: rest) = true
    · have hfo : firstOcc (n0 :: ntail) (c :: rest) = some 0 := by
        rw [firstOcc, if_pos hpre]
      rw [textualRemoveAll_some _ _ _ _ hfo, removeOccs_cons_pos _ _ _ _ hpre]
      simp only [List.take_zero, List.nil_append, Nat.zero_add, List.drop_succ_cons]
      exact ih (rest.drop ntail.length).length
        (by simp only [List.length_drop]; omega) _ rfl
    · cases hrest : firstOcc (n0 :: ntail) rest with
      | none =>
        have hfo : firstOcc (n0 :: ntail) (c :: rest) = none := by
          rw [firstOcc, if_neg hpre, hrest]
          rfl
        rw [textualRemoveAll_none _ _ _ hfo, removeOccs_cons_neg _ _ _ _ hpre,
          removeOccs_of_firstOcc_none _ _ _ hrest]
      | some j =>
        have hfo : firstOcc (n0 :: ntail) (c :: rest) = some (j + 1) := by
          rw [firstOcc, if_neg hpre, hrest]
          rfl
        rw [textualRemoveAll_some _ _ _ _ hfo, removeOccs_cons_neg _ _ _ _ hpre,
          ih rest.length (by omega) rest rfl, textualRemoveAll_some _ _ _ _ hrest]
        have harith : j + 1 + (ntail.length + 1) = (j + (ntail.length + 1)) + 1 := by
          omega
        rw [harith, List.drop_succ_cons, List.take_succ_cons]
        rfl

/-- C7: path cleaning before the permission lookup: the request for
`/users/42/edit` with resolved route parameter value 42 cleans to
`/users/edit`; in general `_get_cleaned_url_path` performs, for each resolved
parameter value v in order, exact textual removal of the segment "/" ++ v
from the URL path. -/
theorem get_cleaned_url_path_spec :
    get_cleaned_url_path demoRequest = "/users/edit"
    ∧ ∀ path method params, get_cleaned_url_path ⟨path, method, params⟩ =
        String.mk (params.foldl (fun p v => textualRemoveAll '/' v.data p) path.data) := by
  constructor
  · rfl
  · intro path method params
    unfold get_cleaned_url_path
    have hf : (fun (p : List Char) (v : String) => removeOccs '/' v.data p)
        = fun (p : List Char) (v : String) => textualRemoveAll '/' v.data p := by
      funext p v
      exact removeOccs_eq_textual '/' v.data p
    rw [hf]

/-- A parsed JSON value, as produced by `request.json()` in the tracker
middleware. -/
inductive JsonValue
  | str (s : String)
  | num (n : Int)
  | boolean (b : Bool)
  | null
  | obj (fields : List (String × JsonValue))
  | arr (items : List JsonValue)
deriving Repr

/-- The sensitive field names of `mask_sensitive_data`
(`tracker.py` line 80). -/
def sensitive_fields : List String :=
  ["password", "new_password", "current_password", "access_token", "refresh_token"]

/-- `mask_string` (`tracker.py` lines 82-83): a string of `*` of the same
length as the value. -/
def mask_string (s : String) : String := String.mk (List.replicate s.length '*')

/-- `mask_dict` (`tracker.py` lines 85-88): replaces, at the top level of a
dict, the value of every sensitive key whose value is a string; everything
else is untouched. -/
def mask_dict (fields : List (String × JsonValue)) : List (String × JsonValue) :=
  fields.map fun p =>
    match p.2 with
    | .str s => if sensitive_fields.contains p.1 then (p.1, .str (mask_string s)) else p
    | _ => p

/-- `mask_sensitive_data` (`tracker.py` lines 78-98): a list body has its
dict elements masked at their top level, a dict body is masked at its top
level, and any other body is returned unchanged. -/
def mask_sensitive_data (data : JsonValue) : JsonValue :=
  match data with
  | .arr items => .arr (items.map fun it =>
      match it with
      | .obj fields => .obj (mask_dict fields)
      | other => other)
  | .obj fields => .obj (mask_dict fields)
  | other => other

/-- The body persisted by `track_request_address` (`tracker.py` lines 41-55):
for mutating methods the parsed JSON body, otherwise an empty dict, passed
through `mask_sensitive_data` before being stored in the tracking record. -/
def tracked_body (method : String) (body : JsonValue) : JsonValue :=
  if ["POST", "PUT", "PATCH"].contains method then mask_sensitive_data body
  else mask_sensitive_data (.obj [])

/-- The per-entry specification of top-level masking: a sensitive key's
string value becomes the equal-length all-`*` string, every other entry is
kept as is. -/
def MaskRel (p q : String × JsonValue) : Prop :=
  q.1 = p.1 ∧
    ((∃ s, p.2 = .str s ∧ p.1 ∈ sensitive_fields ∧ q.2 = .str (mask_string s))
      ∨ (¬(∃ s, p.2 = .str s ∧ p.1 ∈ sensitive_fields) ∧ q.2 = p.2))

/-- C8: masking the body with `password`/`name` yields the nine-star mask
and leaves `name` alone; the mask of a string is all `*` of equal length;
and in general a dict body is masked pointwise per `MaskRel`: every
sensitive key holding a string value is replaced by a string of `*` of equal
length, every other key/value pair is unaltered. -/
theorem mask_sensitive_data_spec :
    mask_sensitive_data (.obj [("password", .str "secret123"), ("name", .str "a")])
      = .obj [("password", .str "*********"), ("name", .str "a")]
    ∧ (∀ s, (mask_string s).length = s.length ∧ ∀ c ∈ (mask_string s).data, c = '*')
    ∧ ∀ fields, mask_sensitive_data (.obj fields) = .obj (mask_dict fields)
        ∧ List.Forall₂ MaskRel fields (mask_dict fields) := by
  refine ⟨rfl, ?_, ?_⟩
  · intro s
    constructor
    · show (List.replicate s.length '*').length = s.length
      simp
    · intro c hc
      have hc' : c ∈ List.replicate s.length '*' := hc
      exact (List.mem_replicate.mp hc').2
  · intro fields
    refine ⟨rfl, ?_⟩
    rw [mask_dict, List.forall₂_map_right_iff, List.forall₂_same]
    intro p hp
    obtain ⟨k, v⟩ := p
    simp only [MaskRel]
    cases v with
    | str s =>
      cases hb : sensitive_fields.contains k
      · refine ⟨by simp [hb], .inr ⟨?_, by simp [hb]⟩⟩
        rintro ⟨s', hs', hk⟩
        have hcont : sensitive_fields.contains k = true := List.elem_iff.mpr hk
        rw [hcont] at hb
        cases hb
      · exact ⟨by simp [hb], .inl ⟨s, rfl, List.elem_iff.mp hb, by simp [hb]⟩⟩
    | num n => exact ⟨rfl, .inr ⟨by rintro ⟨s, hs, _⟩; exact JsonValue.noConfusion hs, rfl⟩⟩
    | boolean b => exact ⟨rfl, .inr ⟨by rintro ⟨s, hs, _⟩; exact JsonValue.noConfusion hs, rfl⟩⟩
    | null => exact ⟨rfl, .inr ⟨by rintro ⟨s, hs, _⟩; exact JsonValue.noConfusion hs, rfl⟩⟩
    | obj fs => exact ⟨rfl, .inr ⟨by rintro ⟨s, hs, _⟩; exact JsonValue.noConfusion hs, rfl⟩⟩
    | arr its => exact ⟨rfl, .inr ⟨by rintro ⟨s, hs, _⟩; exact JsonValue.noConfusion hs, rfl⟩⟩

/-- Witness for C8: the mask of the example password keeps its length, and
its first character is a `*`. -/
theorem mask_sensitive_data_spec_witness :
    (mask_string "secret123").length = String.length "secret123" ∧ ('*' : Char) = '*' :=
  ⟨(mask_sensitive_data_spec.2.1 "secret123").1,
   (mask_sensitive_data_spec.2.1 "secret123").2 '*' (by decide)⟩

/-- C10: masking touches only top-level string values: a sensitive key with
a non-string value (for example a number) is kept verbatim, a sensitive
field nested inside a sub-object is kept verbatim, entries whose value is
not a string are preserved both positionally and as members, a list body is
masked only at the top level of its dict elements, and the persisted
tracking body for a mutating method is exactly the masked body. -/
theorem mask_only_top_level_strings :
    mask_sensitive_data (.obj [("password", .num 12345)])
      = .obj [("password", .num 12345)]
    ∧ mask_sensitive_data
        (.obj [("profile", .obj [("password", .str "secret123")]), ("password", .num 7)])
      = .obj [("profile", .obj [("password", .str "secret123")]), ("password", .num 7)]
    ∧ (∀ fields, List.Forall₂
        (fun p q : String × JsonValue => (∀ s, p.2 ≠ .str s) → q = p)
        fields (mask_dict fields))
    ∧ (∀ fields (k : String) (v : JsonValue), (k, v) ∈ fields → (∀ s, v ≠ .str s) →
        (k, v) ∈ mask_dict fields)
    ∧ (∀ items, mask_sensitive_data (.arr items) = .arr (items.map fun it =>
        match it with
        | .obj fields => .obj (mask_dict fields)
        | other => other))
    ∧ (∀ body, tracked_body "POST" body = mask_sensitive_data body) := by
  refine ⟨rfl, rfl, ?_, ?_, fun items => rfl, fun body => rfl⟩
  · intro fields
    rw [mask_dict, List.forall₂_map_right_iff, List.forall₂_same]
    intro p hp hstr
    obtain ⟨k, v⟩ := p
    cases v with
    | str s => exact absurd rfl (hstr s)
    | num n => rfl
    | boolean b => rfl
    | null => rfl
    | obj fs => rfl
    | arr its => rfl
  · intro fields k v hmem hstr
    rw [mask_dict]
    refine List.mem_map.mpr ⟨(k, v), hmem, ?_⟩
    cases v with
    | str s => exact absurd rfl (hstr s)
    | num n => rfl
    | boolean b => rfl
    | null => rfl
    | obj fs => rfl
    | arr its => rfl

/-- Witness for C10: the numeric password survives masking as a member of
the masked dict. -/
theorem mask_only_top_level_strings_witness :
    ("password", JsonValue.num 12345) ∈ mask_dict [("password", JsonValue.num 12345)] :=
  mask_only_top_level_strings.2.2.2.1 [("password", JsonValue.num 12345)] "password"
    (JsonValue.num 12345) (by simp) (fun s hs => JsonValue.noConfusion hs)

/-- The program counter of one task executing `inner` of `async_cache`
(`cache_util.py` lines 16-24) for one fixed cache key: the unlocked cache
check of line 18, the lock acquisition of line 21, the second check under
the lock at line 22, awaiting the wrapped computation at line 23, the store
into the cache, leaving the `async with` block, and the final read of line
24. Instruction-level interleaving over-approximates asyncio's cooperative
scheduling, so safety here implies safety for the real scheduler. -/
inductive TaskPC
  | checkFast
  | acquireLock
  | checkLocked
  | computing
  | storeResult (r : Nat)
  | releaseLock
  | readCache
  | finished (r : Nat)
deriving DecidableEq, Repr

/-- The shared state of `n` concurrent callers of one `async_cache`-wrapped
function at the same key: the cache entry for that key, the decorator's
`asyncio.Lock`, every task's position, and how many times the wrapped
computation was started. -/
structure CacheState (n : Nat) where
  cache : Option Nat
  lockHeld : Bool
  pcs : Fin n → TaskPC
  calls : Nat

/-- One interleaving step: some task advances by one instruction of `inner`
(`cache_util.py` lines 16-24); the wrapped computation may return any
value. -/
inductive CacheStep (n : Nat) : CacheState n → CacheState n → Prop
  | fastHit (s : CacheState n) (i : Fin n) (v : Nat) :
      s.pcs i = .checkFast → s.cache = some v →
      CacheStep n s { s with pcs := Function.update s.pcs i (.finished v) }
  | fastMiss (s : CacheState n) (i : Fin n) :
      s.pcs i = .checkFast → s.cache = none →
      CacheStep n s { s with pcs := Function.update s.pcs i .acquireLock }
  | acquire (s : CacheState n) (i : Fin n) :
      s.pcs i = .acquireLock → s.lockHeld = false →
      CacheStep n s { s with lockHeld := true, pcs := Function.update s.pcs i .checkLocked }
  | lockedMiss (s : CacheState n) (i : Fin n) :
      s.pcs i = .checkLocked → s.cache = none →
      CacheStep n s { s with pcs := Function.update s.pcs i .computing, calls := s.calls + 1 }
  | lockedHit (s : CacheState n) (i : Fin n) (v : Nat) :
      s.pcs i = .checkLocked → s.cache = some v →
      CacheStep n s { s with pcs := Function.update s.pcs i .releaseLock }
  | compute (s : CacheState n) (i : Fin n) (r : Nat) :
      s.pcs i = .computing →
      CacheStep n s { s with pcs := Function.update s.pcs i (.storeResult r) }
  | store (s : CacheState n) (i : Fin n) (r : Nat) :
      s.pcs i = .storeResult r →
      CacheStep n s { s with cache := some r, pcs := Function.update s.pcs i .releaseLock }
  | release (s : CacheState n) (i : Fin n) :
      s.pcs i = .releaseLock →
      CacheStep n s { s with lockHeld := false, pcs := Function.update s.pcs i .readCache }
  | readFin (s : CacheState n) (i : Fin n) (v : Nat) :
      s.pcs i = .readCache → s.cache = some v →
      CacheStep n s { s with pcs := Function.update s.pcs i (.finished v) }

/-- All `n` callers start at the unlocked cache check, with the key
uncached, the lock free, and the wrapped computation never started. -/
def initCacheState (n : Nat) : CacheState n := ⟨none, false, fun _ => .checkFast, 0⟩

/-- Reachability along interleaving steps from the initial state. -/
def ReachableCache (n : Nat) (s : CacheState n) : Prop :=
  Relation.ReflTransGen (CacheStep n) (initCacheState n) s

/-- The global invariant of `async_cache` at one key: either (A) nothing was
computed yet, the cache is empty, every task is before the computation and
at most one task sits at the locked check holding the lock; or (B) exactly
one computation has started and is still in flight under the lock, the
cache is still empty and every other task is on the fast path or waiting
for the lock; or (C) exactly one computation happened, the cache holds its
value for good, no task is computing and every finished task finished with
the cached value. -/
def CacheInv (n : Nat) (s : CacheState n) : Prop :=
  (s.calls = 0 ∧ s.cache = none
    ∧ (∀ i, s.pcs i = .checkFast ∨ s.pcs i = .acquireLock ∨ s.pcs i = .checkLocked)
    ∧ (∀ i j, s.pcs i = .checkLocked → s.pcs j = .checkLocked → i = j)
    ∧ (s.lockHeld = true ↔ ∃ i, s.pcs i = .checkLocked))
  ∨ (s.calls = 1 ∧ s.cache = none ∧ s.lockHeld = true
    ∧ ∃ i, (s.pcs i = .computing ∨ ∃ r, s.pcs i = .storeResult r)
      ∧ ∀ j, j ≠ i → (s.pcs j = .checkFast ∨ s.pcs j = .acquireLock))
  ∨ (s.calls = 1 ∧ ∃ v, s.cache = some v
    ∧ (∀ i, s.pcs i = .checkFast ∨ s.pcs i = .acquireLock ∨ s.pcs i = .checkLocked
        ∨ s.pcs i = .releaseLock ∨ s.pcs i = .readCache ∨ s.pcs i = .finished v)
    ∧ (∀ i j, (s.pcs i = .checkLocked ∨ s.pcs i = .releaseLock) →
        (s.pcs j = .checkLocked ∨ s.pcs j = .releaseLock) → i = j)
    ∧ (s.lockHeld = true ↔ ∃ i, s.pcs i = .checkLocked ∨ s.pcs i = .releaseLock))

/-- Helper: the pointwise view of a task update. -/
theorem pcs_update_apply {n : Nat} (pcs : Fin n → TaskPC) (i : Fin n) (pc : TaskPC)
    (j : Fin n) : Function.update pcs i pc j = if j = i then pc else pcs j :=
  Function.update_apply pcs i pc j

/-- Helper: an existential over task positions is unchanged by an update
whose old and new positions both fail the predicate. -/
theorem exists_update_iff {n : Nat} (pcs : Fin n → TaskPC) (i : Fin n) (pc : TaskPC)
    (P : TaskPC → Prop) (hold : ¬ P (pcs i)) (hnew : ¬ P pc) :
    (∃ j, P (Function.update pcs i pc j)) ↔ ∃ j, P (pcs j) := by
  constructor
  · rintro ⟨j, hj⟩
    by_cases h : j = i
    · subst h
      rw [Function.update_same] at hj
      exact absurd hj hnew
    · rw [Function.update_noteq h] at hj
      exact ⟨j, hj⟩
  · rintro ⟨j, hj⟩
    by_cases h : j = i
    · subst h
      exact absurd hj hold
    · refine ⟨j, ?_⟩
      rw [Function.update_noteq h]
      exact hj

/-- Helper: a universal position property survives an update into the
property. -/
theorem forall_update {n : Nat} (pcs : Fin n → TaskPC) (i : Fin n) (pc : TaskPC)
    (P : TaskPC → Prop) (hall : ∀ j, P (pcs j)) (hnew : P pc) :
    ∀ j, P (Function.update pcs i pc j) := by
  intro j
  by_cases h : j = i
  · subst h
    rw [Function.update_same]
    exact hnew
  · rw [Function.update_noteq h]
    exact hall j

/-- Helper: at-most-one-ness survives an update whose new position fails
the predicate. -/
theorem uniq_update_of_not {n : Nat} (pcs : Fin n → TaskPC) (i : Fin n) (pc : TaskPC)
    (P : TaskPC → Prop)
    (huniq : ∀ j k, P (pcs j) → P (pcs k) → j = k) (hnew : ¬ P pc) :
    ∀ j k, P (Function.update pcs i pc j) → P (Function.update pcs i pc k) → j = k := by
  intro j k hj hk
  by_cases h1 : j = i
  · subst h1
    rw [Function.update_same] at hj
    exact absurd hj hnew
  · by_cases h2 : k = i
    · subst h2
      rw [Function.update_same] at hk
      exact absurd hk hnew
    · rw [Function.update_noteq h1] at hj
      rw [Function.update_noteq h2] at hk
      exact huniq j k hj hk

/-- Helper: at-most-one-ness survives an update at the unique occupant. -/
theorem uniq_update_self {n : Nat} (pcs : Fin n → TaskPC) (i : Fin n) (pc : TaskPC)
    (P : TaskPC → Prop)
    (honly : ∀ j, P (pcs j) → j = i) :
    ∀ j k, P (Function.update pcs i pc j) → P (Function.update pcs i pc k) → j = k := by
  intro j k hj hk
  by_cases h1 : j = i
  · by_cases h2 : k = i
    · rw [h1, h2]
    · rw [Function.update_noteq h2] at hk
      exact absurd (honly k hk) h2
  · rw [Function.update_noteq h1] at hj
    exact absurd (honly j hj) h1

/-- The `async_cache` invariant is preserved by every interleaving step. -/
theorem cacheInv_step {n : Nat} {s s' : CacheState n} (hinv : CacheInv n s)
    (hstep : CacheStep n s s') : CacheInv n s' := by
  unfold CacheInv at hinv ⊢
  cases hstep with
  | fastHit i v hpc hv =>
    dsimp only
    rcases hinv with ⟨hc, hcache, hall, huniq, hlock⟩ |
      ⟨hc, hcache, hlock, i0, hbusy, hothers⟩ | ⟨hc, v0, hcache, hall, huniq, hlock⟩
    · rw [hcache] at hv
      exact Option.noConfusion hv
    · rw [hcache] at hv
      exact Option.noConfusion hv
    · have hv0 : v = v0 := by
        rw [hcache] at hv
        exact (Option.some.inj hv).symm
      subst hv0
      refine .inr (.inr ⟨hc, v, hcache, ?_, ?_, ?_⟩)
      · exact forall_update s.pcs i (.finished v)
          (fun pc => pc = .checkFast ∨ pc = .acquireLock ∨ pc = .checkLocked
            ∨ pc = .releaseLock ∨ pc = .readCache ∨ pc = .finished v)
          hall (by simp)
      · exact uniq_update_of_not s.pcs i (.finished v)
          (fun pc => pc = .checkLocked ∨ pc = .releaseLock) huniq (by simp)
      · exact hlock.trans (exists_update_iff s.pcs i (.finished v)
          (fun pc => pc = .checkLocked ∨ pc = .releaseLock)
          (by rw [hpc]; simp) (by simp)).symm
  | fastMiss i hpc hv =>
    dsimp only
    rcases hinv with ⟨hc, hcache, hall, huniq, hlock⟩ |
      ⟨hc, hcache, hlock, i0, hbusy, hothers⟩ | ⟨hc, v0, hcache, hall, huniq, hlock⟩
    · refine .inl ⟨hc, hcache, ?_, ?_, ?_⟩
      · exact forall_update s.pcs i .acquireLock
          (fun pc => pc = .checkFast ∨ pc = .acquireLock ∨ pc = .checkLocked)
          hall (by simp)
      · exact uniq_update_of_not s.pcs i .acquireLock
          (fun pc => pc = .checkLocked) huniq (by simp)
      · exact hlock.trans (exists_update_iff s.pcs i .acquireLock
          (fun pc => pc = .checkLocked) (by rw [hpc]; simp) (by simp)).symm
    · have hne : i ≠ i0 := by
        intro h
        subst h
        rcases hbusy with h | ⟨r, h⟩ <;> rw [hpc] at h <;> exact TaskPC.noConfusion h
      refine .inr (.inl ⟨hc, hcache, hlock, i0, ?_, ?_⟩)
      · rw [Function.update_noteq (Ne.symm hne)]
        exact hbusy
      · intro j hj
        by_cases h : j = i
        · subst h
          rw [Function.update_same]
          exact .inr rfl
        · rw [Function.update_noteq h]
          exact hothers j hj
    · refine .inr (.inr ⟨hc, v0, hcache, ?_, ?_, ?_⟩)
      · exact forall_update s.pcs i .acquireLock
          (fun pc => pc = .checkFast ∨ pc = .acquireLock ∨ pc = .checkLocked
            ∨ pc = .releaseLock ∨ pc = .readCache ∨ pc = .finished v0)
          hall (by simp)
      · exact uniq_update_of_not s.pcs i .acquireLock
          (fun pc => pc = .checkLocked ∨ pc = .releaseLock) huniq (by simp)
      · exact hlock.trans (exists_update_iff s.pcs i .acquireLock
          (fun pc => pc = .checkLocked ∨ pc = .releaseLock)
          (by rw [hpc]; simp) (by simp)).symm
  | acquire i hpc hl =>
    dsimp only
    rcases hinv with ⟨hc, hcache, hall, huniq, hlock⟩ |
      ⟨hc, hcache, hlock, i0, hbusy, hothers⟩ | ⟨hc, v0, hcache, hall, huniq, hlock⟩
    · have hnone : ∀ j, s.pcs j ≠ .checkLocked := by
        intro j hj
        have := hlock.mpr ⟨j, hj⟩
        rw [hl] at this
        exact Bool.noConfusion this
      refine .inl ⟨hc, hcache, ?_, ?_, ?_⟩
      · exact forall_update s.pcs i .checkLocked
          (fun pc => pc = .checkFast ∨ pc = .acquireLock ∨ pc = .checkLocked)
          hall (by simp)
      · intro j k hj hk
        by_cases h1 : j = i
        · by_cases h2 : k = i
          · rw [h1, h2]
          · rw [Function.update_noteq h2] at hk
            exact absurd hk (hnone k)
        · rw [Function.update_noteq h1] at hj
          exact absurd hj (hnone j)
      · refine iff_of_true rfl ⟨i, ?_⟩
        rw [Function.update_same]
    · rw [hlock] at hl
      exact Bool.noConfusion hl
    · have hnone : ∀ j, ¬(s.pcs j = .checkLocked ∨ s.pcs j = .releaseLock) := by
        intro j hj
        have := hlock.mpr ⟨j, hj⟩
        rw [hl] at this
        exact Bool.noConfusion this
      refine .inr (.inr ⟨hc, v0, hcache, ?_, ?_, ?_⟩)
      · exact forall_update s.pcs i .checkLocked
          (fun pc => pc = .checkFast ∨ pc = .acquireLock ∨ pc = .checkLocked
            ∨ pc = .releaseLock ∨ pc = .readCache ∨ pc = .finished v0)
          hall (by simp)
      · intro j k hj hk
        by_cases h1 : j = i
        · by_cases h2 : k = i
          · rw [h1, h2]
          · rw [Function.update_noteq h2] at hk
            exact absurd hk (hnone k)
        · rw [Function.update_noteq h1] at hj
          exact absurd hj (hnone j)
      · refine iff_of_true rfl ⟨i, .inl ?_⟩
        rw [Function.update_same]
  | lockedMiss i hpc hv =>
    dsimp only
    rcases hinv with ⟨hc, hcache, hall, huniq, hlock⟩ |
      ⟨hc, hcache, hlock, i0, hbusy, hothers⟩ | ⟨hc, v0, hcache, hall, huniq, hlock⟩
    · refine .inr (.inl ⟨by rw [hc], hcache, hlock.mpr ⟨i, hpc⟩, i, ?_, ?_⟩)
      · rw [Function.update_same]
        exact .inl rfl
      · intro j hj
        rw [Function.update_noteq hj]
        rcases hall j with h | h | h
        · exact .inl h
        · exact .inr h
        · exact absurd (huniq j i h hpc) hj
    · have : i = i0 := by
        by_contra hne
        rcases hothers i hne with h | h <;> rw [h] at hpc <;> exact TaskPC.noConfusion hpc
      subst this
      rcases hbusy with h | ⟨r, h⟩ <;> rw [hpc] at h <;> exact TaskPC.noConfusion h
    · rw [hcache] at hv
      exact Option.noConfusion hv
  | lockedHit i v hpc hv =>
    dsimp only
    rcases hinv with ⟨hc, hcache, hall, huniq, hlock⟩ |
      ⟨hc, hcache, hlock, i0, hbusy, hothers⟩ | ⟨hc, v0, hcache, hall, huniq, hlock⟩
    · rw [hcache] at hv
      exact Option.noConfusion hv
    · rw [hcache] at hv
      exact Option.noConfusion hv
    · refine .inr (.inr ⟨hc, v0, hcache, ?_, ?_, ?_⟩)
      · exact forall_update s.pcs i .releaseLock
          (fun pc => pc = .checkFast ∨ pc = .acquireLock ∨ pc = .checkLocked
            ∨ pc = .releaseLock ∨ pc = .readCache ∨ pc = .finished v0)
          hall (by simp)
      · exact uniq_update_self s.pcs i .releaseLock
          (fun pc => pc = .checkLocked ∨ pc = .releaseLock)
          (fun j hj => huniq j i hj (.inl hpc))
      · refine iff_of_true (hlock.mpr ⟨i, .inl hpc⟩) ⟨i, .inr ?_⟩
        rw [Function.update_same]
  | compute i r hpc =>
    dsimp only
    rcases hinv with ⟨hc, hcache, hall, huniq, hlock⟩ |
      ⟨hc, hcache, hlock, i0, hbusy, hothers⟩ | ⟨hc, v0, hcache, hall, huniq, hlock⟩
    · rcases hall i with h | h | h <;> rw [h] at hpc <;> exact TaskPC.noConfusion hpc
    · have hii : i = i0 := by
        by_contra hne
        rcases hothers i hne with h | h <;> rw [h] at hpc <;> exact TaskPC.noConfusion hpc
      subst hii
      refine .inr (.inl ⟨hc, hcache, hlock, i, ?_, ?_⟩)
      · rw [Function.update_same]
        exact .inr ⟨r, rfl⟩
      · intro j hj
        rw [Function.update_noteq hj]
        exact hothers j hj
    · rcases hall i with h | h | h | h | h | h <;> rw [h] at hpc <;>
        exact TaskPC.noConfusion hpc
  | store i r hpc =>
    dsimp only
    rcases hinv with ⟨hc, hcache, hall, huniq, hlock⟩ |
      ⟨hc, hcache, hlock, i0, hbusy, hothers⟩ | ⟨hc, v0, hcache, hall, huniq, hlock⟩
    · rcases hall i with h | h | h <;> rw [h] at hpc <;> exact TaskPC.noConfusion hpc
    · have hii : i = i0 := by
        by_contra hne
        rcases hothers i hne with h | h <;> rw [h] at hpc <;> exact TaskPC.noConfusion hpc
      subst hii
      refine .inr (.inr ⟨hc, r, rfl, ?_, ?_, ?_⟩)
      · intro j
        by_cases h : j = i
        · subst h
          rw [Function.update_same]
          simp
        · rw [Function.update_noteq h]
          rcases hothers j h with h' | h'
          · exact .inl h'
          · exact .inr (.inl h')
      · refine uniq_update_self s.pcs i .releaseLock
          (fun pc => pc = .checkLocked ∨ pc = .releaseLock) ?_
        intro j hj
        by_cases h : j = i
        · exact h
        · rcases hothers j h with h' | h' <;> rw [h'] at hj <;>
            rcases hj with hj | hj <;> exact TaskPC.noConfusion hj
      · refine iff_of_true hlock ⟨i, .inr ?_⟩
        rw [Function.update_same]
    · rcases hall i with h | h | h | h | h | h <;> rw [h] at hpc <;>
        exact TaskPC.noConfusion hpc
  | release i hpc =>
    dsimp only
    rcases hinv with ⟨hc, hcache, hall, huniq, hlock⟩ |
      ⟨hc, hcache, hlock, i0, hbusy, hothers⟩ | ⟨hc, v0, hcache, hall, huniq, hlock⟩
    · rcases hall i with h | h | h <;> rw [h] at hpc <;> exact TaskPC.noConfusion hpc
    · have hii : i = i0 := by
        by_contra hne
        rcases hothers i hne with h | h <;> rw [h] at hpc <;> exact TaskPC.noConfusion hpc
      subst hii
      rcases hbusy with h | ⟨r, h⟩ <;> rw [hpc] at h <;> exact TaskPC.noConfusion h
    · refine .inr (.inr ⟨hc, v0, hcache, ?_, ?_, ?_⟩)
      · exact forall_update s.pcs i .readCache
          (fun pc => pc = .checkFast ∨ pc = .acquireLock ∨ pc = .checkLocked
            ∨ pc = .releaseLock ∨ pc = .readCache ∨ pc = .finished v0)
          hall (by simp)
      · exact uniq_update_of_not s.pcs i .readCache
          (fun pc => pc = .checkLocked ∨ pc = .releaseLock)
          huniq (by simp)
      · refine iff_of_false (by simp) ?_
        rintro ⟨j, hj⟩
        by_cases h : j = i
        · subst h
          rw [Function.update_same] at hj
          rcases hj with hj | hj <;> exact TaskPC.noConfusion hj
        · rw [Function.update_noteq h] at hj
          exact h (huniq j i hj (.inr hpc))
  | readFin i v hpc hv =>
    dsimp only
    rcases hinv with ⟨hc, hcache, hall, huniq, hlock⟩ |
      ⟨hc, hcache, hlock, i0, hbusy, hothers⟩ | ⟨hc, v0, hcache, hall, huniq, hlock⟩
    · rw [hcache] at hv
      exact Option.noConfusion hv
    · rw [hcache] at hv
      exact Option.noConfusion hv
    · have hv0 : v = v0 := by
        rw [hcache] at hv
        exact (Option.some.inj hv).symm
      subst hv0
      refine .inr (.inr ⟨hc, v, hcache, ?_, ?_, ?_⟩)
      · exact forall_update s.pcs i (.finished v)
          (fun pc => pc = .checkFast ∨ pc = .acquireLock ∨ pc = .checkLocked
            ∨ pc = .releaseLock ∨ pc = .readCache ∨ pc = .finished v)
          hall (by simp)
      · exact uniq_update_of_not s.pcs i (.finished v)
          (fun pc => pc = .checkLocked ∨ pc = .releaseLock) huniq (by simp)
      · exact hlock.trans (exists_update_iff s.pcs i (.finished v)
          (fun pc => pc = .checkLocked ∨ pc = .releaseLock)
          (by rw [hpc]; simp) (by simp)).symm

/-- Every reachable state of the `async_cache` system satisfies the
invariant. -/
theorem cacheInv_reachable {n : Nat} {s : CacheState n} (h : ReachableCache n s) :
    CacheInv n s := by
  unfold ReachableCache at h
  induction h with
  | refl =>
    unfold CacheInv initCacheState
    refine .inl ⟨rfl, rfl, fun i => .inl rfl, fun i j hi hj => ?_, ?_⟩
    · exact TaskPC.noConfusion hi
    · constructor
      · intro h'
        exact Bool.noConfusion h'
      · rintro ⟨i, hi⟩
        exact TaskPC.noConfusion hi
  | tail hsteps hstep ih => exact cacheInv_step ih hstep

/-- C9: the single-flight property of `async_cache` at one key: along every
interleaving from the uncached initial state, the wrapped computation is
started at most once, at most one task is ever inside the computation, and
in every state where all callers have finished, the computation ran exactly
once and every caller received the identical cached result. -/
theorem async_cache_single_flight (n : Nat) (s : CacheState n)
    (hreach : ReachableCache n s) :
    s.calls ≤ 1
    ∧ (∀ i j, (s.pcs i = .computing ∨ ∃ r, s.pcs i = .storeResult r) →
        (s.pcs j = .computing ∨ ∃ r, s.pcs j = .storeResult r) → i = j)
    ∧ ((∀ i, ∃ r, s.pcs i = .finished r) → n ≠ 0 →
        s.calls = 1 ∧ ∃ v, s.cache = some v ∧ ∀ i, s.pcs i = .finished v) := by
  have hinv := cacheInv_reachable hreach
  unfold CacheInv at hinv
  rcases hinv with ⟨hc, hcache, hall, _, _⟩ | ⟨hc, hcache, _, i0, hbusy, hothers⟩ |
    ⟨hc, v, hcache, hall, _, _⟩
  · refine ⟨by omega, ?_, ?_⟩
    · intro i j hi hj
      exfalso
      rcases hi with hi | ⟨r, hi⟩ <;> rcases hall i with h | h | h <;> rw [h] at hi <;>
        exact TaskPC.noConfusion hi
    · intro hfin hn
      exfalso
      obtain ⟨r, hr⟩ := hfin ⟨0, Nat.pos_of_ne_zero hn⟩
      rcases hall ⟨0, Nat.pos_of_ne_zero hn⟩ with h | h | h <;> rw [h] at hr <;>
        exact TaskPC.noConfusion hr
  · refine ⟨by omega, ?_, ?_⟩
    · intro i j hi hj
      have h1 : i = i0 := by
        by_contra hne
        rcases hi with hi | ⟨r, hi⟩ <;> rcases hothers i hne with h | h <;> rw [h] at hi <;>
          exact TaskPC.noConfusion hi
      have h2 : j = i0 := by
        by_contra hne
        rcases hj with hj | ⟨r, hj⟩ <;> rcases hothers j hne with h | h <;> rw [h] at hj <;>
          exact TaskPC.noConfusion hj
      rw [h1, h2]
    · intro hfin _
      exfalso
      obtain ⟨r, hr⟩ := hfin i0
      rcases hbusy with h | ⟨r', h⟩ <;> rw [hr] at h <;> exact TaskPC.noConfusion h
  · refine ⟨by omega, ?_, ?_⟩
    · intro i j hi hj
      exfalso
      rcases hi with hi | ⟨r, hi⟩ <;> rcases hall i with h | h | h | h | h | h <;>
        rw [h] at hi <;> exact TaskPC.noConfusion hi
    · intro hfin hn
      refine ⟨hc, v, hcache, ?_⟩
      intro i
      obtain ⟨r, hr⟩ := hfin i
      rcases hall i with h | h | h | h | h | h
      · rw [h] at hr
        exact TaskPC.noConfusion hr
      · rw [h] at hr
        exact TaskPC.noConfusion hr
      · rw [h] at hr
        exact TaskPC.noConfusion hr
      · rw [h] at hr
        exact TaskPC.noConfusion hr
      · rw [h] at hr
        exact TaskPC.noConfusion hr
      · exact h

/-- Extensionality for one-task cache states. -/
theorem cacheState1_ext {s t : CacheState 1} (hc : s.cache = t.cache)
    (hl : s.lockHeld = t.lockHeld) (hp : s.pcs 0 = t.pcs 0) (hk : s.calls = t.calls) :
    s = t := by
  obtain ⟨c1, l1, p1, k1⟩ := s
  obtain ⟨c2, l2, p2, k2⟩ := t
  dsimp only at hc hl hp hk
  subst hc
  subst hl
  subst hk
  have hfun : p1 = p2 := by
    funext i
    have h0 : i = 0 := by
      apply Fin.ext
      have := i.isLt
      omega
    rw [h0]
    exact hp
  rw [hfun]

/-- Transport of a step along an equality of target states. -/
theorem cacheStep_congr {n : Nat} {s s' s'' : CacheState n} (h : CacheStep n s s')
    (heq : s' = s'') : CacheStep n s s'' := heq ▸ h

/-- Intermediate states of a complete one-caller run whose computation
returns 7. -/
def demoCache1 : CacheState 1 := ⟨none, false, fun _ => .acquireLock, 0⟩

/-- The one-caller run after acquiring the lock. -/
def demoCache2 : CacheState 1 := ⟨none, true, fun _ => .checkLocked, 0⟩

/-- The one-caller run while computing. -/
def demoCache3 : CacheState 1 := ⟨none, true, fun _ => .computing, 1⟩

/-- The one-caller run after the computation returned 7. -/
def demoCache4 : CacheState 1 := ⟨none, true, fun _ => .storeResult 7, 1⟩

/-- The one-caller run after storing into the cache. -/
def demoCache5 : CacheState 1 := ⟨some 7, true, fun _ => .releaseLock, 1⟩

/-- The one-caller run after releasing the lock. -/
def demoCache6 : CacheState 1 := ⟨some 7, false, fun _ => .readCache, 1⟩

/-- The final state of the one-caller run. -/
def demoCacheFinal : CacheState 1 := ⟨some 7, false, fun _ => .finished 7, 1⟩

/-- The complete one-caller run is reachable. -/
theorem demoCacheFinal_reachable : ReachableCache 1 demoCacheFinal := by
  unfold ReachableCache
  have r1 : Relation.ReflTransGen (CacheStep 1) (initCacheState 1) demoCache1 :=
    .tail .refl (cacheStep_congr (CacheStep.fastMiss (initCacheState 1) 0 rfl rfl)
      (cacheState1_ext rfl rfl (by simp [demoCache1]) rfl))
  have r2 : Relation.ReflTransGen (CacheStep 1) (initCacheState 1) demoCache2 :=
    .tail r1 (cacheStep_congr (CacheStep.acquire demoCache1 0 rfl rfl)
      (cacheState1_ext rfl rfl (by simp [demoCache2]) rfl))
  have r3 : Relation.ReflTransGen (CacheStep 1) (initCacheState 1) demoCache3 :=
    .tail r2 (cacheStep_congr (CacheStep.lockedMiss demoCache2 0 rfl rfl)
      (cacheState1_ext rfl rfl (by simp [demoCache3]) rfl))
  have r4 : Relation.ReflTransGen (CacheStep 1) (initCacheState 1) demoCache4 :=
    .tail r3 (cacheStep_congr (CacheStep.compute demoCache3 0 7 rfl)
      (cacheState1_ext rfl rfl (by simp [demoCache4]) rfl))
  have r5 : Relation.ReflTransGen (CacheStep 1) (initCacheState 1) demoCache5 :=
    .tail r4 (cacheStep_congr (CacheStep.store demoCache4 0 7 rfl)
      (cacheState1_ext rfl rfl (by simp [demoCache5]) rfl))
  have r6 : Relation.ReflTransGen (CacheStep 1) (initCacheState 1) demoCache6 :=
    .tail r5 (cacheStep_congr (CacheStep.release demoCache5 0 rfl)
      (cacheState1_ext rfl rfl (by simp [demoCache6]) rfl))
  exact .tail r6 (cacheStep_congr (CacheStep.readFin demoCache6 0 7 rfl rfl)
    (cacheState1_ext rfl rfl (by simp [demoCacheFinal]) rfl))

/-- Witness for C9: after a complete one-caller run whose computation
returned 7, the theorem yields: the computation ran exactly once and the
caller finished with the cached value. -/
theorem async_cache_single_flight_witness :
    demoCacheFinal.calls = 1 ∧ ∃ v, demoCacheFinal.cache = some v
      ∧ ∀ i, demoCacheFinal.pcs i = .finished v :=
  (async_cache_single_flight 1 demoCacheFinal demoCacheFinal_reachable).2.2
    (fun _ => ⟨7, rfl⟩) (by decide)
